import Mathlib

/-!
Shallow embedding of the dependency-graph core of `git-kustomize-diff`
(`pkg/utils/kustomize.go`): reference extraction (`GetKustomizationRefs`),
graph building (`BuildRefs`), inversion (`InvertRefs`) and the ancestor
resolver (`FindParents`), together with theorems about them.

Modelling conventions:
* A filesystem path is a list of clean segments relative to a fixed root
  (`GoPath`).  `filepath.Join` is concatenation followed by lexical cleaning
  (`joinP`), exactly Go's `Clean` on segment lists; `filepath.Rel` on clean
  relative paths is `relP` and never fails on this domain, so the dead
  `err != nil` branches after `Rel` calls in the source have no counterpart.
  `filepath.Abs` is the identity on root-relative paths.
* The filesystem is a finite association list from paths to entries; a file
  entry carries the outcome of reading-and-unmarshalling it as a
  `Kustomization` (the only way the code ever reads file contents).
* Go maps are modelled as association lists in insertion order (Go's
  iteration order is unspecified; the theorems below are order-insensitive
  where the code is nondeterministic).
* Go's unbounded recursion in `FindParents` is modelled with explicit fuel:
  a `none` result for every fuel value means the Go function does not
  terminate on that input.
-/

set_option autoImplicit false

namespace GitKustomizeDiff

/-- A filesystem path: its clean segments, relative to a fixed root. -/
abbrev GoPath := List String

/-- One step of Go's `path.Clean` on segments: drop `"."`, resolve `".."`
against the last accumulated segment when possible. -/
def pushSeg (acc : List String) (s : String) : List String :=
  if s = "." then acc
  else if s = ".." then
    match acc.getLast? with
    | none => [".."]
    | some t => if t = ".." then acc ++ [".."] else acc.dropLast
  else acc ++ [s]

/-- Go's `path.Clean` on a relative segment list. -/
def cleanPath (p : GoPath) : GoPath := p.foldl pushSeg []

/-- Go's `filepath.Join` on segment lists: concatenate, then clean. -/
def joinP (a b : GoPath) : GoPath := cleanPath (a ++ b)

/-- Go's `filepath.Rel` on clean relative segment lists: strip the common
leading segments, then climb out of what remains of the base.  On this
domain `Rel` never returns an error. -/
def relP : GoPath → GoPath → GoPath
  | [], t => t
  | b :: bs, [] => List.replicate (b :: bs).length ".."
  | b :: bs, t :: ts =>
      if b = t then relP bs ts
      else List.replicate (bs.length + 1) ".." ++ (t :: ts)

/-- The `Kustomization` struct: the three recognized list fields of a
configuration unit (`resources`, `components`, `patchesStrategicMerge`);
every entry is itself a relative path. -/
structure Kustomization where
  resources : List GoPath
  components : List GoPath
  patchesStrategicMerge : List GoPath
deriving DecidableEq

/-- A filesystem entry: a directory, or a file whose content is represented
by the outcome of `ioutil.ReadFile` + `yaml.Unmarshal` into `Kustomization`
(an `Except.error` models both read failures and malformed documents). -/
inductive Entry where
  | dir : Entry
  | file : Except String Kustomization → Entry

/-- `fs.DirEntry.IsDir`. -/
def Entry.isDir : Entry → Bool
  | Entry.dir => true
  | Entry.file _ => false

/-- The filesystem: association list from paths to entries, listed in
`filepath.WalkDir` (lexical) order. -/
structure GoFS where
  entries : List (GoPath × Entry)

/-- First-match association-list lookup (the Go map read `m[k]`). -/
def alookup {β : Type} : List (GoPath × β) → GoPath → Option β
  | [], _ => none
  | (k, v) :: rest, a => if k = a then some v else alookup rest a

/-- Go map read with zero value: `m[k]` on a `map[string][]string`. -/
def lookupD (m : List (GoPath × List GoPath)) (a : GoPath) : List GoPath :=
  (alookup m a).getD []

/-- `os.Stat`, as far as the code consults it. -/
def lookupFS (fs : GoFS) (p : GoPath) : Option Entry :=
  alookup fs.entries p

/-- Modelled from the spec: the repository's `Exists` helper is not among
the provided sources; the spec describes it as a read-only existence check,
and its call sites require exactly `true` iff the path has an entry. -/
def pathExists (fs : GoFS) (p : GoPath) : Bool :=
  (lookupFS fs p).isSome

/-- `KustomizationExists`: try `kustomization.yaml` then `kustomization.yml`
in the directory, returning the first accepted filename that exists. -/
def KustomizationExists (fs : GoFS) (path : GoPath) : Bool × String :=
  if pathExists fs (joinP path ["kustomization.yaml"]) then
    (true, "kustomization.yaml")
  else if pathExists fs (joinP path ["kustomization.yml"]) then
    (true, "kustomization.yml")
  else
    (false, "")

/-- `ioutil.ReadFile` + `yaml.Unmarshal` of a kustomization file. -/
def readKustomizationFile (fs : GoFS) (p : GoPath) : Except String Kustomization :=
  match lookupFS fs p with
  | some (Entry.file doc) => doc
  | some Entry.dir => Except.error "read: is a directory"
  | none => Except.error "read: no such file"

/-- The concatenation `resources ++ components ++ patchesStrategicMerge`
built into `simpleResources` by `GetKustomizationRefs`. -/
def simpleResources (k : Kustomization) : List GoPath :=
  k.resources ++ k.components ++ k.patchesStrategicMerge

/-- The body of the reference-resolution loop of `GetKustomizationRefs` for
one declared entry `r`: resolve against the declaring directory, stat, and
classify (missing → opaque relative link; directory → its nested
kustomization file, or fail; plain file → relative link). -/
def resolveRef (fs : GoFS) (basePath path : GoPath) (r : GoPath) :
    Except String GoPath :=
  let rel := relP basePath (joinP path r)
  let candidatePath := joinP path r
  match lookupFS fs candidatePath with
  | none =>
      -- file not found, just add as relative link anyways; maybe remote
      Except.ok rel
  | some Entry.dir =>
      match KustomizationExists fs candidatePath with
      | (true, kustomizationFilename) =>
          Except.ok (relP basePath (joinP candidatePath [kustomizationFilename]))
      | (false, _) => Except.error "No Kustomization found in dir"
  | some (Entry.file _) => Except.ok rel

/-- The reference-resolution loop of `GetKustomizationRefs`: resolve the
declared entries in order, aborting at the first failure. -/
def resolveAll (fs : GoFS) (basePath path : GoPath) :
    List GoPath → Except String (List GoPath)
  | [] => Except.ok []
  | r :: rest =>
      match resolveRef fs basePath path r with
      | Except.error e => Except.error e
      | Except.ok x =>
          match resolveAll fs basePath path rest with
          | Except.error e => Except.error e
          | Except.ok xs => Except.ok (x :: xs)

/-- `GetKustomizationRefs`: locate the configuration unit in `path`, parse
it, and resolve its declared references in order. -/
def GetKustomizationRefs (fs : GoFS) (basePath path : GoPath) :
    Except String (List GoPath) :=
  match KustomizationExists fs path with
  | (false, _) => Except.error "no kustomization file found"
  | (true, f) =>
      match readKustomizationFile fs (joinP path [f]) with
      | Except.error e => Except.error e
      | Except.ok kustomization =>
          resolveAll fs basePath path (simpleResources kustomization)

/-- `invertedRefs[e] = append(invertedRefs[e], k)` on the association-list
model of a Go map: append to the existing entry, or add a new key. -/
def appendAt : List (GoPath × List GoPath) → GoPath → GoPath →
    List (GoPath × List GoPath)
  | [], e, k => [(e, [k])]
  | (x, w) :: rest, e, k =>
      if x = e then (x, w ++ [k]) :: rest
      else (x, w) :: appendAt rest e k

/-- The body of the outer loop of `InvertRefs`: process one forward entry
`(k, v)`, appending `k` under every target of `v` in order. -/
def invStep (inv : List (GoPath × List GoPath)) (kv : GoPath × List GoPath) :
    List (GoPath × List GoPath) :=
  kv.2.foldl (fun i e => appendAt i e kv.1) inv

/-- `InvertRefs`: for every source `k` and every target `e` in `refMap[k]`,
append `k` to the reverse list keyed by `e`. -/
def InvertRefs (refMap : List (GoPath × List GoPath)) :
    List (GoPath × List GoPath) :=
  refMap.foldl invStep []

/-- The directories visited by `filepath.WalkDir(dirPath, ...)`: every
directory entry of the filesystem below (or equal to) `dirPath`, in the
stored walk order. -/
def underDir : GoPath → GoPath → Bool
  | [], _ => true
  | _ :: _, [] => false
  | b :: bs, t :: ts => b = t && underDir bs ts

def walkDirs (fs : GoFS) (dirPath : GoPath) : List GoPath :=
  (fs.entries.filter (fun e => e.2.isDir && underDir dirPath e.1)).map Prod.fst

/-- The walk body of `BuildRefs`: skip directories without a configuration
unit, otherwise extract references (any failure aborts the whole walk) and
record them keyed by the unit file's path relative to the root. -/
def buildRefsWalk (fs : GoFS) (dirPath : GoPath) :
    List GoPath → Except String (List (GoPath × List GoPath))
  | [] => Except.ok []
  | d :: rest =>
      match KustomizationExists fs d with
      | (false, _) => buildRefsWalk fs dirPath rest
      | (true, kustomizationPath) =>
          let relPath := relP dirPath d
          let absPath := joinP dirPath relPath
          match GetKustomizationRefs fs dirPath absPath with
          | Except.error e => Except.error e
          | Except.ok refs =>
              match buildRefsWalk fs dirPath rest with
              | Except.error e => Except.error e
              | Except.ok m => Except.ok ((joinP relPath [kustomizationPath], refs) :: m)

/-- `BuildRefs`: walk the tree collecting the forward map, then return its
inversion (the reverse, referenced-by map). -/
def BuildRefs (fs : GoFS) (dirPath : GoPath) :
    Except String (List (GoPath × List GoPath)) :=
  match buildRefsWalk fs dirPath (walkDirs fs dirPath) with
  | Except.error e => Except.error e
  | Except.ok refMap => Except.ok (InvertRefs refMap)

/-- The `for _, ref := range refs` loop of `FindParents`: call the resolver
on every referrer, discarding its error (`p, _ := FindParents(...)`), and
concatenate the results.  `F` is the recursive call at the current fuel. -/
def seqParents (F : GoPath → Option (List GoPath × Option String)) :
    List GoPath → Option (List GoPath)
  | [] => some []
  | ref :: rest =>
      match F ref with
      | none => none
      | some (p, _) =>
          match seqParents F rest with
          | none => none
          | some ps => some (p ++ ps)

/-- `FindParents(referrent, basePath)`, fuel-indexed: rebuild the reverse
graph, return the node itself when it has no referrers, otherwise resolve
every referrer recursively.  A `none` result for every fuel value means the
Go original recurses forever.  The second component of a `some` result is
the returned `error` value. -/
def FindParents (fs : GoFS) : Nat → GoPath → GoPath →
    Option (List GoPath × Option String)
  | 0, _, _ => none
  | fuel + 1, referrent, basePath =>
      let res : List (GoPath × List GoPath) × Option String :=
        match BuildRefs fs basePath with
        | Except.ok m => (m, none)
        | Except.error e => ([], some e)
      let refs := lookupD res.1 referrent
      if refs = [] then some ([referrent], none)
      else
        match seqParents (fun r => FindParents fs fuel r basePath) refs with
        | none => none
        | some parents => some (parents, res.2)

/-- Number of occurrences of `a` in a list of paths (multiplicity). -/
def occ (a : GoPath) : List GoPath → Nat
  | [] => 0
  | x :: xs => if x = a then occ a xs + 1 else occ a xs

/-- Total contribution of a forward map to the reverse list of `b` counted
at source `a`: one for each occurrence of `b` in an entry keyed `a`. -/
def contrib : List (GoPath × List GoPath) → GoPath → GoPath → Nat
  | [], _, _ => 0
  | (k, v) :: rest, a, b =>
      (if k = a then occ b v else 0) + contrib rest a b

/-- A file whose content is never parsed as a configuration unit. -/
def plainFile : Entry := Entry.file (Except.error "not a kustomization document")

/-- The spec's concrete fixture tree (§8): directories `a`, `b`, `refs`,
`refs/components`; `refs` declares two plain resources, a cross-directory
resource (`../a`), a component directory and a strategic-merge patch. -/
def fixFS : GoFS := ⟨[
  ([], Entry.dir),
  (["a"], Entry.dir),
  (["a", "kustomization.yaml"], Entry.file (Except.ok ⟨[["pod.yaml"]], [], []⟩)),
  (["a", "pod.yaml"], plainFile),
  (["b"], Entry.dir),
  (["b", "kustomization.yaml"], Entry.file (Except.ok ⟨[["pod.yaml"]], [], []⟩)),
  (["b", "pod.yaml"], plainFile),
  (["refs"], Entry.dir),
  (["refs", "components"], Entry.dir),
  (["refs", "components", "kustomization.yaml"], Entry.file (Except.ok ⟨[], [], []⟩)),
  (["refs", "deployment.yaml"], plainFile),
  (["refs", "kustomization.yaml"], Entry.file (Except.ok
      ⟨[["pod.yaml"], ["deployment.yaml"], ["..", "a"]], [["components"]],
       [["release-patch.yaml"]]⟩)),
  (["refs", "pod.yaml"], plainFile),
  (["refs", "release-patch.yaml"], plainFile)
]⟩

/-- A tree with a reference cycle: `a`'s unit references `b`'s directory and
`b`'s unit references `a`'s directory. -/
def cycFS : GoFS := ⟨[
  ([], Entry.dir),
  (["a"], Entry.dir),
  (["a", "kustomization.yaml"], Entry.file (Except.ok ⟨[["..", "b"]], [], []⟩)),
  (["b"], Entry.dir),
  (["b", "kustomization.yaml"], Entry.file (Except.ok ⟨[["..", "a"]], [], []⟩))
]⟩

/-- A tree on which graph construction fails: `x`'s unit references the
existing directory `x/sub`, which contains no configuration unit. -/
def badFS : GoFS := ⟨[
  ([], Entry.dir),
  (["x"], Entry.dir),
  (["x", "kustomization.yaml"], Entry.file (Except.ok ⟨[["sub"]], [], []⟩)),
  (["x", "sub"], Entry.dir)
]⟩

/-- The inversion `BuildRefs` computes for `fixFS` (checked by `rfl` in the
witnesses below). -/
def fixInverted : List (GoPath × List GoPath) := [
  (["a", "pod.yaml"], [["a", "kustomization.yaml"]]),
  (["b", "pod.yaml"], [["b", "kustomization.yaml"]]),
  (["refs", "pod.yaml"], [["refs", "kustomization.yaml"]]),
  (["refs", "deployment.yaml"], [["refs", "kustomization.yaml"]]),
  (["a", "kustomization.yaml"], [["refs", "kustomization.yaml"]]),
  (["refs", "components", "kustomization.yaml"], [["refs", "kustomization.yaml"]]),
  (["refs", "release-patch.yaml"], [["refs", "kustomization.yaml"]])
]

/-- A directory holding both accepted unit filenames. -/
def bothFS : GoFS :=
  ⟨[(["kustomization.yaml"], plainFile), (["kustomization.yml"], plainFile)]⟩

/-- A directory holding only the second accepted unit filename. -/
def ymlFS : GoFS := ⟨[(["kustomization.yml"], plainFile)]⟩

/-- An empty directory tree. -/
def emptyFS : GoFS := ⟨[]⟩

/-- A tree whose unit declares a reference that exists nowhere on disk (a
remote resource identifier). -/
def remoteFS : GoFS := ⟨[
  ([], Entry.dir),
  (["r"], Entry.dir),
  (["r", "kustomization.yaml"], Entry.file (Except.ok
      ⟨[["github.com", "org", "repo"]], [], []⟩))
]⟩

/-- A small forward map with a duplicated target from a single source, used
to exercise the inversion theorems on a concrete input. -/
def wRefMap : List (GoPath × List GoPath) :=
  [(["s"], [["t"], ["t"]]), (["u"], [["t"]])]

/-! ### Counting and association-list lemmas for `InvertRefs` -/

theorem occ_append (a : GoPath) (l₁ l₂ : List GoPath) :
    occ a (l₁ ++ l₂) = occ a l₁ + occ a l₂ := by
  induction l₁ with
  | nil => simp [occ]
  | cons x xs ih =>
      by_cases h : x = a
      · simp [occ, h, ih]; omega
      · simp [occ, h, ih]

theorem occ_replicate (a k : GoPath) (n : Nat) :
    occ a (List.replicate n k) = if k = a then n else 0 := by
  induction n with
  | zero => simp [occ]
  | succ n ih =>
      by_cases h : k = a
      · subst h; simp [List.replicate_succ, occ, ih]
      · simp [List.replicate_succ, occ, h] at ih ⊢
        exact ih

theorem occ_pos_iff_mem (a : GoPath) (l : List GoPath) :
    0 < occ a l ↔ a ∈ l := by
  induction l with
  | nil => simp [occ]
  | cons x xs ih =>
      by_cases h : x = a
      · subst h; simp [occ]
      · have h2 : ¬a = x := fun h2 => h h2.symm
        simp [occ, h, ih, List.mem_cons, h2]

theorem lookupD_appendAt (m : List (GoPath × List GoPath)) (e k x : GoPath) :
    lookupD (appendAt m e k) x =
      if x = e then lookupD m x ++ [k] else lookupD m x := by
  induction m with
  | nil =>
      by_cases h : x = e
      · subst h; simp [appendAt, lookupD, alookup]
      · simp [appendAt, lookupD, alookup, h, Ne.symm h]
  | cons p rest ih =>
      obtain ⟨y, w⟩ := p
      by_cases hy : y = e
      · subst hy
        by_cases hx : x = y
        · subst hx; simp [appendAt, lookupD, alookup]
        · simp [appendAt, lookupD, alookup, hx, Ne.symm hx]
      · by_cases hx : x = y
        · subst hx
          have hxe : ¬x = e := fun h2 => hy h2
          simp [appendAt, lookupD, alookup, hy, hxe]
        · simp only [lookupD] at ih ⊢
          simp only [appendAt, if_neg hy, alookup, if_neg (Ne.symm hx)]
          exact ih

theorem lookupD_foldl_appendAt (v : List GoPath) (k b : GoPath) :
    ∀ inv : List (GoPath × List GoPath),
      lookupD (v.foldl (fun i e => appendAt i e k) inv) b =
        lookupD inv b ++ List.replicate (occ b v) k := by
  induction v with
  | nil => intro inv; simp [occ]
  | cons e rest ih =>
      intro inv
      rw [List.foldl_cons, ih, lookupD_appendAt]
      by_cases h : e = b
      · subst h; simp [occ, List.replicate_succ]
      · simp [occ, h, Ne.symm h]

theorem lookupD_invStep (inv : List (GoPath × List GoPath))
    (kv : GoPath × List GoPath) (b : GoPath) :
    lookupD (invStep inv kv) b =
      lookupD inv b ++ List.replicate (occ b kv.2) kv.1 := by
  exact lookupD_foldl_appendAt kv.2 kv.1 b inv

theorem occ_lookupD_invert_fold (l : List (GoPath × List GoPath))
    (a b : GoPath) :
    ∀ inv : List (GoPath × List GoPath),
      occ a (lookupD (l.foldl invStep inv) b) =
        occ a (lookupD inv b) + contrib l a b := by
  induction l with
  | nil => intro inv; simp [contrib]
  | cons p rest ih =>
      intro inv
      obtain ⟨k, v⟩ := p
      rw [List.foldl_cons, ih, lookupD_invStep, occ_append, occ_replicate,
        contrib]
      by_cases h : k = a
      · simp [h]; omega
      · simp [h]

theorem contrib_of_not_mem (l : List (GoPath × List GoPath)) (a b : GoPath)
    (h : a ∉ l.map Prod.fst) : contrib l a b = 0 := by
  induction l with
  | nil => simp [contrib]
  | cons p rest ih =>
      obtain ⟨k, v⟩ := p
      simp only [List.map_cons, List.mem_cons, not_or] at h
      have hk : ¬k = a := fun h2 => h.1 h2.symm
      simp [contrib, hk, ih h.2]

theorem contrib_eq_occ_lookupD (l : List (GoPath × List GoPath))
    (a b : GoPath) (hnd : (l.map Prod.fst).Nodup) :
    contrib l a b = occ b (lookupD l a) := by
  induction l with
  | nil => simp [contrib, lookupD, alookup, occ]
  | cons p rest ih =>
      obtain ⟨k, v⟩ := p
      simp only [List.map_cons, List.nodup_cons] at hnd
      by_cases h : k = a
      · subst h
        rw [contrib, contrib_of_not_mem rest k b hnd.1]
        simp [lookupD, alookup]
      · rw [contrib]
        simp [h, lookupD, alookup, ih hnd.2]

theorem mem_keys_appendAt (m : List (GoPath × List GoPath)) (e k x : GoPath) :
    x ∈ (appendAt m e k).map Prod.fst ↔ x ∈ m.map Prod.fst ∨ x = e := by
  induction m with
  | nil => simp [appendAt, eq_comm]
  | cons p rest ih =>
      obtain ⟨y, w⟩ := p
      by_cases hy : y = e
      · subst hy
        simp [appendAt, List.mem_cons]
        tauto
      · simp [appendAt, hy, ih, List.mem_cons]
        tauto

theorem mem_keys_foldl_appendAt (v : List GoPath) (k x : GoPath) :
    ∀ inv : List (GoPath × List GoPath),
      x ∈ (v.foldl (fun i e => appendAt i e k) inv).map Prod.fst ↔
        x ∈ inv.map Prod.fst ∨ x ∈ v := by
  induction v with
  | nil => intro inv; simp
  | cons e rest ih =>
      intro inv
      rw [List.foldl_cons, ih, mem_keys_appendAt]
      simp only [List.mem_cons]
      tauto

theorem mem_keys_invert_fold (l : List (GoPath × List GoPath)) (x : GoPath) :
    ∀ inv : List (GoPath × List GoPath),
      x ∈ (l.foldl invStep inv).map Prod.fst ↔
        x ∈ inv.map Prod.fst ∨ ∃ p, p ∈ l ∧ x ∈ p.2 := by
  induction l with
  | nil => intro inv; simp
  | cons p rest ih =>
      intro inv
      obtain ⟨k, v⟩ := p
      rw [List.foldl_cons, ih]
      have hstep : x ∈ (invStep inv (k, v)).map Prod.fst ↔
          x ∈ inv.map Prod.fst ∨ x ∈ v := mem_keys_foldl_appendAt v k x inv
      rw [hstep]
      constructor
      · rintro ((h | h) | ⟨q, hq, hx⟩)
        · exact Or.inl h
        · exact Or.inr ⟨(k, v), List.mem_cons_self _ _, h⟩
        · exact Or.inr ⟨q, List.mem_cons_of_mem _ hq, hx⟩
      · rintro (h | ⟨q, hq, hx⟩)
        · exact Or.inl (Or.inl h)
        · rcases List.mem_cons.mp hq with hq | hq
          · subst hq; exact Or.inl (Or.inr hx)
          · exact Or.inr ⟨q, hq, hx⟩

theorem values_ne_nil_appendAt (m : List (GoPath × List GoPath))
    (e k : GoPath) (hm : ∀ p, p ∈ m → p.2 ≠ []) :
    ∀ p, p ∈ appendAt m e k → p.2 ≠ ([] : List GoPath) := by
  induction m with
  | nil =>
      intro p hp
      simp only [appendAt, List.mem_singleton] at hp
      subst hp; simp
  | cons q rest ih =>
      obtain ⟨y, w⟩ := q
      intro p hp
      by_cases hy : y = e
      · rw [appendAt, if_pos hy] at hp
        rcases List.mem_cons.mp hp with hp | hp
        · subst hp; simp
        · exact hm p (List.mem_cons_of_mem _ hp)
      · rw [appendAt, if_neg hy] at hp
        rcases List.mem_cons.mp hp with hp | hp
        · subst hp; exact hm (y, w) (List.mem_cons_self _ _)
        · exact ih (fun q hq => hm q (List.mem_cons_of_mem _ hq)) p hp

theorem values_ne_nil_foldl_appendAt (v : List GoPath) (k : GoPath) :
    ∀ inv : List (GoPath × List GoPath), (∀ p, p ∈ inv → p.2 ≠ []) →
      ∀ p, p ∈ v.foldl (fun i e => appendAt i e k) inv →
        p.2 ≠ ([] : List GoPath) := by
  induction v with
  | nil => intro inv h; exact h
  | cons e rest ih =>
      intro inv h
      rw [List.foldl_cons]
      exact ih _ (values_ne_nil_appendAt inv e k h)

theorem values_ne_nil_invert_fold (l : List (GoPath × List GoPath)) :
    ∀ inv : List (GoPath × List GoPath), (∀ p, p ∈ inv → p.2 ≠ []) →
      ∀ p, p ∈ l.foldl invStep inv → p.2 ≠ ([] : List GoPath) := by
  induction l with
  | nil => intro inv h; exact h
  | cons q rest ih =>
      intro inv h
      rw [List.foldl_cons]
      exact ih _ (values_ne_nil_foldl_appendAt q.2 q.1 inv h)

/-! ### Claims about `InvertRefs` (C4, C10) -/

/-- C4: `InvertRefs` is a pure function preserving reference multiplicity:
for a forward edge map (with the distinct keys of a Go map), a source `a`
occurs in the reverse list of `b` exactly as many times as `b` occurs in
`a`'s forward list — duplicates from a single source included — and
conversely every element of the reverse list of `b` is a source whose
forward list contains `b`. -/
theorem invertRefs_multiplicity (refMap : List (GoPath × List GoPath))
    (hnd : (refMap.map Prod.fst).Nodup) (a b : GoPath) :
    occ a (lookupD (InvertRefs refMap) b) = occ b (lookupD refMap a) ∧
    (∀ x, x ∈ lookupD (InvertRefs refMap) b → b ∈ lookupD refMap x) := by
  have hmain : ∀ a2 : GoPath,
      occ a2 (lookupD (InvertRefs refMap) b) = occ b (lookupD refMap a2) := by
    intro a2
    rw [InvertRefs, occ_lookupD_invert_fold refMap a2 b [],
      contrib_eq_occ_lookupD refMap a2 b hnd]
    simp [lookupD, alookup, occ]
  refine ⟨hmain a, fun x hx => ?_⟩
  have hpos := (occ_pos_iff_mem x _).mpr hx
  rw [hmain x] at hpos
  exact (occ_pos_iff_mem b _).mp hpos

/-- Witness for C4 on `wRefMap`: the source `s`, which lists the target `t`
twice, occurs in `t`'s reverse list with the same multiplicity. -/
theorem invertRefs_multiplicity_witness :
    occ ["s"] (lookupD (InvertRefs wRefMap) ["t"]) =
      occ ["t"] (lookupD wRefMap ["s"]) :=
  (invertRefs_multiplicity wRefMap (by decide) ["s"] ["t"]).1

/-- C10: every key of an `InvertRefs` result has a non-empty referrer list,
and a node appears as a key exactly when at least one source's forward list
contains it, so "present with an empty referrer collection" never occurs in
an `InvertRefs` result. -/
theorem invertRefs_keys_nonempty (refMap : List (GoPath × List GoPath)) :
    (∀ p, p ∈ InvertRefs refMap → p.2 ≠ []) ∧
    (∀ b, b ∈ (InvertRefs refMap).map Prod.fst ↔
      ∃ p, p ∈ refMap ∧ b ∈ p.2) := by
  constructor
  · intro p hp
    exact values_ne_nil_invert_fold refMap [] (by simp) p hp
  · intro b
    rw [InvertRefs, mem_keys_invert_fold refMap b []]
    simp

/-- Witness for C10 on `wRefMap`: `t` is referenced, hence a key of the
inversion. -/
theorem invertRefs_keys_nonempty_witness :
    (["t"] : GoPath) ∈ (InvertRefs wRefMap).map Prod.fst :=
  ((invertRefs_keys_nonempty wRefMap).2 ["t"]).mpr
    ⟨(["s"], [["t"], ["t"]]), by decide, by decide⟩

/-! ### Claims about the Reference Extractor (C3, C7, C9) -/

theorem resolveAll_eq_mapM (fs : GoFS) (basePath path : GoPath)
    (l : List GoPath) :
    resolveAll fs basePath path l = l.mapM (resolveRef fs basePath path) := by
  induction l with
  | nil => rfl
  | cons r rest ih =>
      rw [resolveAll, List.mapM_cons, ih]
      cases resolveRef fs basePath path r with
      | error e => rfl
      | ok x =>
          cases rest.mapM (resolveRef fs basePath path) with
          | error e => rfl
          | ok xs => rfl

/-- C3: when the unit in `path` is found and parses to a document declaring
resource list `R`, component list `C` and patch list `P`, the extractor
returns exactly the in-order resolution of `R ++ C ++ P`: the three
categories in that order, each preserving declaration order. -/
theorem getKustomizationRefs_concat (fs : GoFS) (basePath path : GoPath)
    (f : String) (doc : Kustomization)
    (hex : KustomizationExists fs path = (true, f))
    (hdoc : readKustomizationFile fs (joinP path [f]) = Except.ok doc) :
    GetKustomizationRefs fs basePath path =
      (doc.resources ++ doc.components ++ doc.patchesStrategicMerge).mapM
        (resolveRef fs basePath path) := by
  rw [← resolveAll_eq_mapM]
  simp [GetKustomizationRefs, hex, hdoc, simpleResources]

/-- Witness for C3 on the spec's fixture: `refs` declares three resources,
one component and one patch; the output lists the five resolved
identifiers in exactly that order. -/
theorem getKustomizationRefs_concat_witness :
    GetKustomizationRefs fixFS [] ["refs"] = Except.ok
      [["refs", "pod.yaml"], ["refs", "deployment.yaml"],
       ["a", "kustomization.yaml"], ["refs", "components", "kustomization.yaml"],
       ["refs", "release-patch.yaml"]] :=
  (getKustomizationRefs_concat fixFS [] ["refs"] "kustomization.yaml"
      ⟨[["pod.yaml"], ["deployment.yaml"], ["..", "a"]], [["components"]],
       [["release-patch.yaml"]]⟩ rfl rfl).trans rfl

/-- C7: the unit lookup tries exactly the two accepted filenames,
`kustomization.yaml` before `kustomization.yml` (so the first wins when
both exist), and when neither exists the extractor fails with the
config-not-found error. -/
theorem kustomizationExists_two_names (fs : GoFS) (basePath path : GoPath) :
    (pathExists fs (joinP path ["kustomization.yaml"]) = true →
      KustomizationExists fs path = (true, "kustomization.yaml")) ∧
    (pathExists fs (joinP path ["kustomization.yaml"]) = false →
      pathExists fs (joinP path ["kustomization.yml"]) = true →
      KustomizationExists fs path = (true, "kustomization.yml")) ∧
    (pathExists fs (joinP path ["kustomization.yaml"]) = false →
      pathExists fs (joinP path ["kustomization.yml"]) = false →
      KustomizationExists fs path = (false, "") ∧
      GetKustomizationRefs fs basePath path =
        Except.error "no kustomization file found") := by
  refine ⟨fun h1 => ?_, fun h1 h2 => ?_, fun h1 h2 => ?_⟩
  · simp [KustomizationExists, h1]
  · simp [KustomizationExists, h1, h2]
  · have hk : KustomizationExists fs path = (false, "") := by
      simp [KustomizationExists, h1, h2]
    exact ⟨hk, by simp [GetKustomizationRefs, hk]⟩

/-- Witness for C7: with both filenames present the first is preferred;
with only the second it is used; with neither, the extractor fails. -/
theorem kustomizationExists_two_names_witness :
    KustomizationExists bothFS [] = (true, "kustomization.yaml") ∧
    KustomizationExists ymlFS [] = (true, "kustomization.yml") ∧
    (KustomizationExists emptyFS [] = (false, "") ∧
      GetKustomizationRefs emptyFS [] [] =
        Except.error "no kustomization file found") :=
  ⟨(kustomizationExists_two_names bothFS [] []).1 rfl,
   ((kustomizationExists_two_names ymlFS [] []).2.1 rfl rfl),
   ((kustomizationExists_two_names emptyFS [] []).2.2 rfl rfl)⟩

theorem resolveAll_map_of_forall_ok (fs : GoFS) (basePath path : GoPath)
    (g : GoPath → GoPath) (l : List GoPath)
    (h : ∀ x, x ∈ l → resolveRef fs basePath path x = Except.ok (g x)) :
    resolveAll fs basePath path l = Except.ok (l.map g) := by
  induction l with
  | nil => rfl
  | cons r rest ih =>
      rw [resolveAll, h r (List.mem_cons_self _ _),
        ih (fun x hx => h x (List.mem_cons_of_mem _ hx))]
      rfl

/-- C9: a declared reference whose resolved path does not exist on disk is
not an error: it is recorded as an opaque external reference, relative to
the base path; and when every declared entry is of this kind the extractor
succeeds with exactly those relative paths. -/
theorem opaque_external_ref (fs : GoFS) (basePath path : GoPath) (r : GoPath)
    (hnone : lookupFS fs (joinP path r) = none) :
    resolveRef fs basePath path r =
      Except.ok (relP basePath (joinP path r)) ∧
    (∀ f doc, KustomizationExists fs path = (true, f) →
      readKustomizationFile fs (joinP path [f]) = Except.ok doc →
      (∀ x, x ∈ simpleResources doc → lookupFS fs (joinP path x) = none) →
      GetKustomizationRefs fs basePath path =
        Except.ok ((simpleResources doc).map
          (fun x => relP basePath (joinP path x)))) := by
  constructor
  · simp [resolveRef, hnone]
  · intro f doc hex hdoc hall
    have h2 : GetKustomizationRefs fs basePath path =
        resolveAll fs basePath path (simpleResources doc) := by
      simp [GetKustomizationRefs, hex, hdoc]
    rw [h2]
    exact resolveAll_map_of_forall_ok fs basePath path _ _
      (fun x hx => by simp [resolveRef, hall x hx])

/-- Witness for C9 on `remoteFS`: the declared entry
`github.com/org/repo` exists nowhere on disk; resolution records it
relative to the base path and the extractor succeeds. -/
theorem opaque_external_ref_witness :
    resolveRef remoteFS [] ["r"] ["github.com", "org", "repo"] =
      Except.ok ["r", "github.com", "org", "repo"] ∧
    GetKustomizationRefs remoteFS [] ["r"] =
      Except.ok [["r", "github.com", "org", "repo"]] := by
  have h := opaque_external_ref remoteFS [] ["r"] ["github.com", "org", "repo"]
    rfl
  refine ⟨h.1, ?_⟩
  have h2 := h.2 "kustomization.yaml"
    ⟨[["github.com", "org", "repo"]], [], []⟩ rfl rfl
    (fun x hx => by
      simp only [simpleResources, List.append_nil, List.mem_singleton,
        List.mem_cons] at hx
      rcases hx with hx | hx
      · subst hx; rfl
      · cases hx)
  exact h2.trans rfl

/-! ### Claims about nested-directory references (C8) -/

theorem resolveRef_error_msg (fs : GoFS) (basePath path r : GoPath)
    (e : String) (h : resolveRef fs basePath path r = Except.error e) :
    e = "No Kustomization found in dir" := by
  simp only [resolveRef] at h
  rcases hfs : lookupFS fs (joinP path r) with _ | entry <;> rw [hfs] at h
  · simp at h
  · cases entry with
    | dir =>
        rcases hk : KustomizationExists fs (joinP path r) with ⟨b, name⟩
        rw [hk] at h
        cases b
        · simp at h
          exact h.symm
        · simp at h
    | file doc => simp at h

theorem resolveAll_error_of_mem (fs : GoFS) (basePath path : GoPath)
    (l : List GoPath) (r : GoPath) (hr : r ∈ l) (e : String)
    (he : resolveRef fs basePath path r = Except.error e) :
    resolveAll fs basePath path l =
      Except.error "No Kustomization found in dir" := by
  induction l with
  | nil => cases hr
  | cons x rest ih =>
      rw [resolveAll]
      rcases hx : resolveRef fs basePath path x with ex | vx
      · rw [resolveRef_error_msg fs basePath path x ex hx]
      · rcases List.mem_cons.mp hr with hrx | hrx
        · subst hrx
          rw [he] at hx
          cases hx
        · rw [ih hrx]

/-- C8: a declared entry resolving to an existing directory must contain a
recognized configuration unit: if it does not, resolving the entry — and
with it the whole extraction — fails with the missing-nested-config error;
if it does, the recorded identifier is the nested unit file's path (not the
bare directory), relative to the base path. -/
theorem missing_nested_config (fs : GoFS) (basePath path r : GoPath)
    (hdir : lookupFS fs (joinP path r) = some Entry.dir) :
    ((KustomizationExists fs (joinP path r)).1 = false →
      resolveRef fs basePath path r =
        Except.error "No Kustomization found in dir" ∧
      (∀ f doc, KustomizationExists fs path = (true, f) →
        readKustomizationFile fs (joinP path [f]) = Except.ok doc →
        r ∈ simpleResources doc →
        GetKustomizationRefs fs basePath path =
          Except.error "No Kustomization found in dir")) ∧
    (∀ name, KustomizationExists fs (joinP path r) = (true, name) →
      resolveRef fs basePath path r =
        Except.ok (relP basePath (joinP (joinP path r) [name]))) := by
  constructor
  · intro hk1
    rcases hk : KustomizationExists fs (joinP path r) with ⟨b, name⟩
    rw [hk] at hk1
    subst hk1
    have hres : resolveRef fs basePath path r =
        Except.error "No Kustomization found in dir" := by
      simp [resolveRef, hdir, hk]
    refine ⟨hres, fun f doc hex hdoc hmem => ?_⟩
    have h2 : GetKustomizationRefs fs basePath path =
        resolveAll fs basePath path (simpleResources doc) := by
      simp [GetKustomizationRefs, hex, hdoc]
    rw [h2]
    exact resolveAll_error_of_mem fs basePath path _ r hmem _ hres
  · intro name hname
    simp [resolveRef, hdir, hname]

/-- Witness for C8: in `badFS` the entry `sub` of `x`'s unit is a directory
without a unit, so extraction fails; in `fixFS` the entry `components` of
`refs`' unit is a directory with a unit, recorded as the nested unit file
relative to the base. -/
theorem missing_nested_config_witness :
    resolveRef badFS [] ["x"] ["sub"] =
      Except.error "No Kustomization found in dir" ∧
    GetKustomizationRefs badFS [] ["x"] =
      Except.error "No Kustomization found in dir" ∧
    resolveRef fixFS [] ["refs"] ["components"] =
      Except.ok ["refs", "components", "kustomization.yaml"] := by
  have hbad := (missing_nested_config badFS [] ["x"] ["sub"] rfl).1 rfl
  have hfix := (missing_nested_config fixFS [] ["refs"] ["components"] rfl).2
    "kustomization.yaml" rfl
  exact ⟨hbad.1,
    hbad.2 "kustomization.yaml" ⟨[["sub"]], [], []⟩ rfl rfl (by decide),
    hfix⟩

/-! ### Claims about the Graph Builder and Ancestor Resolver (C5, C6) -/

/-- C5: a changed-file identifier with no entry (hence an empty entry) in
the reverse edge set built for the root directory is returned as the sole
result, with no error. -/
theorem findParents_root_fixed_point (fs : GoFS) (fuel : Nat)
    (referrent basePath : GoPath) (m : List (GoPath × List GoPath))
    (hb : BuildRefs fs basePath = Except.ok m)
    (hempty : lookupD m referrent = []) :
    FindParents fs (fuel + 1) referrent basePath =
      some ([referrent], none) := by
  simp [FindParents, hb, hempty]

/-- Witness for C5 on the spec's fixture: `b`'s unit is referenced by
nothing, so resolving it yields exactly itself, without error. -/
theorem findParents_root_fixed_point_witness :
    FindParents fixFS 1 ["b", "kustomization.yaml"] [] =
      some ([["b", "kustomization.yaml"]], none) :=
  findParents_root_fixed_point fixFS 0 ["b", "kustomization.yaml"] []
    fixInverted rfl rfl

theorem buildRefsWalk_error_of_mem (fs : GoFS) (dirPath : GoPath)
    (l : List GoPath) (d : GoPath) (hd : d ∈ l)
    (hk : (KustomizationExists fs d).1 = true) (e : String)
    (he : GetKustomizationRefs fs dirPath (joinP dirPath (relP dirPath d)) =
      Except.error e) :
    ∃ e2, buildRefsWalk fs dirPath l = Except.error e2 := by
  induction l with
  | nil => cases hd
  | cons x rest ih =>
      rcases hkx : KustomizationExists fs x with ⟨b, name⟩
      cases b
      · rcases List.mem_cons.mp hd with hdx | hdx
        · subst hdx
          rw [hkx] at hk
          simp at hk
        · obtain ⟨e2, hw⟩ := ih hdx
          exact ⟨e2, by simp [buildRefsWalk, hkx, hw]⟩
      · rcases hge : GetKustomizationRefs fs dirPath
            (joinP dirPath (relP dirPath x)) with e1 | refs
        · exact ⟨e1, by simp [buildRefsWalk, hkx, hge]⟩
        · rcases List.mem_cons.mp hd with hdx | hdx
          · subst hdx
            rw [he] at hge
            cases hge
          · obtain ⟨e2, hw⟩ := ih hdx
            exact ⟨e2, by simp [buildRefsWalk, hkx, hge, hw]⟩

/-- C6: if the extractor fails on any directory the walk visits, the whole
build fails: `BuildRefs` returns an error and no (partial) graph. -/
theorem buildRefs_atomic (fs : GoFS) (dirPath : GoPath) (d : GoPath)
    (hd : d ∈ walkDirs fs dirPath)
    (hk : (KustomizationExists fs d).1 = true) (e : String)
    (he : GetKustomizationRefs fs dirPath (joinP dirPath (relP dirPath d)) =
      Except.error e) :
    ∃ e2, BuildRefs fs dirPath = Except.error e2 := by
  obtain ⟨e2, hw⟩ :=
    buildRefsWalk_error_of_mem fs dirPath (walkDirs fs dirPath) d hd hk e he
  exact ⟨e2, by simp [BuildRefs, hw]⟩

/-- Witness for C6 on `badFS`: extraction fails under `x`, and the whole
build returns an error. -/
theorem buildRefs_atomic_witness :
    ∃ e2, BuildRefs badFS [] = Except.error e2 :=
  buildRefs_atomic badFS [] ["x"] (by decide) rfl
    "No Kustomization found in dir" rfl

/-! ### The resolver's failure handling and cycle behavior (C1, C2) -/

/-- C2 (code bug): the claim that a graph-build failure during resolution
is propagated is violated by the code.  On `badFS`, `BuildRefs` fails, yet
`FindParents` returns a successful result with a `nil` error for every
changed file: the error from the recursive `BuildRefs` is discarded, both
by `p, _ := FindParents(...)` and by the base case taken on the `nil` map
a failed build leaves behind. -/
theorem findParents_swallows_build_error :
    BuildRefs badFS [] = Except.error "No Kustomization found in dir" ∧
    ∀ (fuel : Nat) (r : GoPath),
      FindParents badFS (fuel + 1) r [] = some ([r], none) := by
  refine ⟨rfl, fun fuel r => ?_⟩
  have hb : BuildRefs badFS [] =
      Except.error "No Kustomization found in dir" := rfl
  simp [FindParents, hb, lookupD, alookup]

/-- C1 (code bug): the claim that resolution terminates on every graph,
failing with a cycle error on cyclic ones, is violated by the code.  On
`cycFS` the build succeeds and the reverse graph makes `a`'s and `b`'s
units reference each other; `FindParents` on either unit recurses without
bound — the fuel-indexed model returns no result at any recursion depth —
instead of failing with a `CyclicReference` error. -/
theorem findParents_cycle_diverges :
    BuildRefs cycFS [] = Except.ok
      [(["b", "kustomization.yaml"], [["a", "kustomization.yaml"]]),
       (["a", "kustomization.yaml"], [["b", "kustomization.yaml"]])] ∧
    ∀ fuel : Nat,
      FindParents cycFS fuel ["a", "kustomization.yaml"] [] = none ∧
      FindParents cycFS fuel ["b", "kustomization.yaml"] [] = none := by
  refine ⟨rfl, fun fuel => ?_⟩
  induction fuel with
  | zero => exact ⟨rfl, rfl⟩
  | succ fuel ih =>
      have hb : BuildRefs cycFS [] = Except.ok
          [(["b", "kustomization.yaml"], [["a", "kustomization.yaml"]]),
           (["a", "kustomization.yaml"], [["b", "kustomization.yaml"]])] := rfl
      have hla : lookupD
          [(["b", "kustomization.yaml"], [["a", "kustomization.yaml"]]),
           (["a", "kustomization.yaml"], [["b", "kustomization.yaml"]])]
          ["a", "kustomization.yaml"] = [["b", "kustomization.yaml"]] := rfl
      have hlb : lookupD
          [(["b", "kustomization.yaml"], [["a", "kustomization.yaml"]]),
           (["a", "kustomization.yaml"], [["b", "kustomization.yaml"]])]
          ["b", "kustomization.yaml"] = [["a", "kustomization.yaml"]] := rfl
      constructor
      · rw [FindParents, hb]
        simp only [hla, seqParents, ih.2]
        rfl
      · rw [FindParents, hb]
        simp only [hlb, seqParents, ih.1]
        rfl

end GitKustomizeDiff
